import Mathlib

/-!
Verification of the plakar repository storage engine against its
natural-language specification.

The definitions below are a shallow embedding of the Go sources:

* `repository/state/state.go` — the local state / delta index and its
  binary serialization (`SerializeToStream`, `deserializeFromStream`,
  `DeltaEntry.ToBytes`, `DeltaEntryFromBytes`, `InsertState`,
  `BlobExists`, `GetSubpartForBlob`);
* `caching/repository.go` — the leveldb-backed repository cache
  (`put`/`get`/`has` with upsert semantics, `PutDelta`, `HasDelta`,
  `GetDelta`);
* `btree/iter.go` — the B+tree forward and backward iterators
  (`ScanAll`, `ScanFrom`, `ScanAllReverse`);
* the `sync` subcommand (`cmd_sync`, `synchronize`);
* `snapshot/exporter/exporter.go` (`NewExporter`);
* `cmd/plakar/subcommands/checksum/checksum.go` (`displayChecksums`).

Machine integers are modelled as `Nat` (with explicit `% 2^w` where the
Go code truncates), byte strings as `List Nat`, fallible code as
`Option`/`Except`, and the leveldb key/value store as association lists
with upsert insertion (matching leveldb `Put` semantics).
-/

namespace Plakar

/-- A byte string (each element is a byte value; the Go code only ever
stores values below 256, which is carried as a hypothesis where it
matters). -/
abbrev Bytes := List Nat

/-- `objects.Checksum` is a `[32]byte` fixed-size array. -/
def Checksum := { l : Bytes // l.length = 32 }

instance : DecidableEq Checksum := fun a b =>
  decidable_of_iff (a.val = b.val) Subtype.ext_iff.symm

/-- The all-zero checksum, the Go zero value of `objects.Checksum`. -/
def zeroChecksum : Checksum := ⟨List.replicate 32 0, List.length_replicate 32 0⟩

/-- `state.Location`: a blob's position inside a packfile
(`state.go:50-54`).  `Offset`/`Length` are `uint32`. -/
structure Location where
  packfile : Checksum
  offset : Nat
  length : Nat
deriving DecidableEq

/-- `state.DeltaEntry` (`state.go:56-60`).  `Type` is `packfile.Type`,
a `uint8`. -/
structure DeltaEntry where
  type : Nat
  blob : Checksum
  location : Location
deriving DecidableEq

/-- `state.Metadata` (`state.go:43-48`).  The timestamp is kept as the
`UnixNano` value (`int64`) used by the stream codec. -/
structure Metadata where
  version : Nat
  timestampNs : Int
  aggregate : Bool
  extendsIds : List Checksum
deriving DecidableEq

/-- `ET_METADATA` (`state.go:38`). -/
def ET_METADATA : Nat := 1
/-- `ET_LOCATIONS` (`state.go:39`). -/
def ET_LOCATIONS : Nat := 2

/-- `LocationSerializedSize = 32 + 4 + 4` (`state.go:65`). -/
def LocationSerializedSize : Nat := 32 + 4 + 4
/-- `DeltaEntrySerializedSize = 1 + 32 + LocationSerializedSize`
(`state.go:66`). -/
def DeltaEntrySerializedSize : Nat := 1 + 32 + LocationSerializedSize

/-- `binary.LittleEndian.PutUint32` on a `uint32` value. -/
def u32le (n : Nat) : Bytes :=
  [n % 256, n / 256 % 256, n / 65536 % 256, n / 16777216 % 256]

/-- `binary.LittleEndian.PutUint64` on a `uint64` value. -/
def u64le (n : Nat) : Bytes :=
  [n % 256, n / 256 % 256, n / 65536 % 256, n / 16777216 % 256,
   n / 4294967296 % 256, n / 1099511627776 % 256,
   n / 281474976710656 % 256, n / 72057594037927936 % 256]

/-- `binary.LittleEndian.Uint32` over the first four bytes. -/
def readU32 (l : Bytes) : Nat :=
  l.getD 0 0 + 256 * l.getD 1 0 + 65536 * l.getD 2 0 + 16777216 * l.getD 3 0

/-- `binary.LittleEndian.Uint64` over the first eight bytes. -/
def readU64 (l : Bytes) : Nat :=
  l.getD 0 0 + 256 * l.getD 1 0 + 65536 * l.getD 2 0 + 16777216 * l.getD 3 0
  + 4294967296 * l.getD 4 0 + 1099511627776 * l.getD 5 0
  + 281474976710656 * l.getD 6 0 + 72057594037927936 * l.getD 7 0

/-- Go's `uint64(i)` conversion of an `int64` (two's-complement wrap). -/
def int64ToU64 (i : Int) : Nat := (i % (18446744073709551616 : Int)).toNat

/-- Go's `int64(u)` conversion of a `uint64`. -/
def u64ToInt64 (n : Nat) : Int :=
  if n < 9223372036854775808 then (n : Int) else (n : Int) - 18446744073709551616

/-- `DeltaEntry._toBytes` / `ToBytes` (`state.go:230-246`): one type
byte, the 32 blob bytes, the 32 packfile bytes, offset and length as
little-endian `uint32`. -/
def DeltaEntry.toBytes (de : DeltaEntry) : Bytes :=
  de.type % 256 :: (de.blob.val ++ de.location.packfile.val
    ++ u32le de.location.offset ++ u32le de.location.length)

/-- `state.DeltaEntryFromBytes` (`state.go:198-228`): reads the type
byte, 32 blob bytes, 32 packfile bytes, then two little-endian
`uint32`s; fails on a short buffer. -/
def DeltaEntryFromBytes (buf : Bytes) : Option DeltaEntry :=
  match buf with
  | [] => none
  | t :: r =>
    let blob := r.take 32
    let r1 := r.drop 32
    let pf := r1.take 32
    let r2 := r1.drop 32
    if hb : blob.length = 32 then
      if hp : pf.length = 32 then
        if 8 ≤ r2.length then
          some ⟨t, ⟨blob, hb⟩,
            ⟨⟨pf, hp⟩, readU32 (r2.take 4), readU32 ((r2.drop 4).take 4)⟩⟩
        else none
      else none
    else none

/-- Well-formedness of a delta entry as produced by the Go code:
the type is a `uint8` and offset/length are `uint32` values. -/
def DeltaEntry.WF (de : DeltaEntry) : Prop :=
  de.type < 256 ∧ de.location.offset < 4294967296 ∧ de.location.length < 4294967296

instance (de : DeltaEntry) : Decidable de.WF := by
  unfold DeltaEntry.WF; infer_instance

/-! ## The repository cache (`caching/repository.go`)

The cache is a leveldb key/value store.  Delta entries live under keys
`"__delta__:<type>:<hex csum>"` and state records under
`"__state__:<hex id>"`; we model the two families as typed association
lists.  leveldb `Put` is an upsert: it overwrites the value when the
key is present and inserts otherwise.  (leveldb iterates keys in sorted
order; the model keeps insertion order, which is immaterial for the
set-level statements proved here.) -/

/-- The key of a delta entry in the repository cache: the blob type and
the blob checksum (`PutDelta`/`GetDelta` key
`"__delta__:%d:%x"`, `caching/repository.go:102-128`). -/
abbrev DeltaKey := Nat × Checksum

/-- The delta-entry section of the repository cache: each value is the
raw 73-byte serialized `DeltaEntry` stored by `PutDelta`. -/
abbrev Cache := List (DeltaKey × Bytes)

/-- leveldb `Put` (upsert) specialized to the `__delta__` key family:
`_RepositoryCache.PutDelta` (`caching/repository.go:126-128`). -/
def putDelta (c : Cache) (t : Nat) (cs : Checksum) (d : Bytes) : Cache :=
  if c.any (fun kv => kv.1 = (t, cs)) then
    c.map (fun kv => if kv.1 = (t, cs) then ((t, cs), d) else kv)
  else c ++ [((t, cs), d)]

/-- `_RepositoryCache.HasDelta` (`caching/repository.go:106-108`). -/
def hasDelta (c : Cache) (t : Nat) (cs : Checksum) : Bool :=
  c.any (fun kv => kv.1 = (t, cs))

/-- `LocalState` (`state.go:75-88`): metadata plus the cache.  The
`__state__` family stores, per absorbed state id, the msgpack-encoded
metadata published by `InsertState`; msgpack encoding is injective on
`Metadata`, so the model stores the `Metadata` value itself. -/
structure LocalState where
  metadata : Metadata
  deltas : Cache
  states : List (Checksum × Metadata)

/-- `_RepositoryCache.PutState` upsert (`caching/repository.go:63-65`). -/
def putState (s : List (Checksum × Metadata)) (sid : Checksum) (md : Metadata) :
    List (Checksum × Metadata) :=
  if s.any (fun kv => kv.1 = sid) then
    s.map (fun kv => if kv.1 = sid then (sid, md) else kv)
  else s ++ [(sid, md)]

/-- `LocalState.HasState` → `_RepositoryCache.HasState`
(`state.go:327-329`, `caching/repository.go:67-69`). -/
def hasState (ls : LocalState) (sid : Checksum) : Bool :=
  ls.states.any (fun kv => kv.1 = sid)

/-- The metadata tail written by `SerializeToStream`
(`state.go:167-192`): the `ET_METADATA` tag, version (`uint32` LE),
`UnixNano` timestamp (`uint64` LE, two's-complement wrap of the
`int64`), aggregate flag byte, extends count (`uint64` LE) and the raw
32-byte extends checksums. -/
def metadataRecordBody (md : Metadata) : Bytes :=
  u32le md.version ++ u64le (int64ToU64 md.timestampNs)
    ++ [if md.aggregate then 1 else 0]
    ++ u64le md.extendsIds.length
    ++ md.extendsIds.flatMap (·.val)

def serializeMetadataTail (md : Metadata) : Bytes :=
  ET_METADATA :: metadataRecordBody md

/-- `LocalState.SerializeToStream` (`state.go:146-196`): every cached
delta value prefixed by an `ET_LOCATIONS` tag byte, then the metadata
tail. -/
def serializeToStream (ls : LocalState) : Bytes :=
  ls.deltas.flatMap (fun kv => ET_LOCATIONS :: kv.2) ++ serializeMetadataTail ls.metadata

/-- The `ET_LOCATIONS` loop of `deserializeFromStream`
(`state.go:265-290`): read a tag byte; stop at `ET_METADATA`; otherwise
read a 73-byte delta entry, decode it to recover its key, and insert
the raw buffer under that key. -/
def readEntries : Bytes → Cache → Option (Cache × Bytes)
  | [], _ => none
  | t :: rest, c =>
    if t = ET_METADATA then some (c, rest)
    else if _h : DeltaEntrySerializedSize ≤ rest.length then
      match DeltaEntryFromBytes (rest.take DeltaEntrySerializedSize) with
      | none => none
      | some de =>
        readEntries (rest.drop DeltaEntrySerializedSize)
          (putDelta c de.type de.blob (rest.take DeltaEntrySerializedSize))
    else none
termination_by l => l.length
decreasing_by simp [List.length_drop]; omega

/-- The extends loop of `deserializeFromStream` (`state.go:315-322`):
read `n` 32-byte checksums. -/
def readChecksums : Nat → Bytes → Option (List Checksum × Bytes)
  | 0, rest => some ([], rest)
  | n + 1, rest =>
    let c := rest.take 32
    if h : c.length = 32 then
      match readChecksums n (rest.drop 32) with
      | none => none
      | some (cs, rest') => some (⟨c, h⟩ :: cs, rest')
    else none

/-- The metadata section of `deserializeFromStream`
(`state.go:292-324`): version, timestamp, aggregate flag, extends
count, extends checksums. -/
def parseMetadataTail (b : Bytes) : Option (Metadata × Bytes) :=
  if 4 ≤ b.length then
    let version := readU32 (b.take 4)
    let b1 := b.drop 4
    if 8 ≤ b1.length then
      let ts := u64ToInt64 (readU64 (b1.take 8))
      let b2 := b1.drop 8
      match b2 with
      | [] => none
      | flag :: b3 =>
        if 8 ≤ b3.length then
          let n := readU64 (b3.take 8)
          match readChecksums n (b3.drop 8) with
          | none => none
          | some (cs, rest) => some (⟨version, ts, flag == 1, cs⟩, rest)
        else none
    else none
  else none

/-- `LocalState.deserializeFromStream` (`state.go:248-325`): merge the
streamed delta entries into the given cache, then read the metadata
record.  Returns the updated cache and the stream's metadata. -/
def deserializeFromStream (c : Cache) (input : Bytes) : Option (Cache × Metadata) :=
  match readEntries input c with
  | none => none
  | some (c', rest) =>
    match parseMetadataTail rest with
    | none => none
    | some (md, _) => some (c', md)

/-- `LocalState.InsertState` (`state.go:113-140`): a no-op success when
the state id is already recorded; otherwise deserialize the stream into
the cache, overwrite the in-memory metadata, and publish the state id
with the freshly read metadata. -/
def insertState (ls : LocalState) (sid : Checksum) (rd : Bytes) : Option LocalState :=
  if hasState ls sid then some ls
  else
    match deserializeFromStream ls.deltas rd with
    | none => none
    | some (c', md) => some ⟨md, c', putState ls.states sid md⟩

/-! ### Round-trip of the state-file stream format (claim C1) -/

/-- Every cached delta value is the serialization of a well-formed
entry stored under its own key — the invariant maintained by both
writers (`PutDelta` at `state.go:335-337` and the deserialization loop
at `state.go:289`). -/
def CacheWF (c : Cache) : Prop :=
  ∀ kv ∈ c, ∃ de : DeltaEntry, de.WF ∧ kv.2 = de.toBytes ∧ kv.1 = (de.type, de.blob)

/-- Field bounds of a metadata record as produced by the Go code:
`Version` is a `uint32`, the timestamp a valid `UnixNano` `int64`, and
the extends count a `uint64`. -/
def MetadataWF (md : Metadata) : Prop :=
  md.version < 4294967296
  ∧ -9223372036854775808 ≤ md.timestampNs
  ∧ md.timestampNs < 9223372036854775808
  ∧ md.extendsIds.length < 18446744073709551616

/-- The deserialization loop folded over a serialized entry list. -/
def insertAll (a : Cache) (l : Cache) : Cache :=
  l.foldl (fun acc kv => putDelta acc kv.1.1 kv.1.2 kv.2) a

/-! ## Repository façade: `BlobExists` (claim C5)

`Repository.BlobExists` forwards to `LocalState.BlobExists`
(`state.go:354-357`), which only consults the cache; the storage
backend is carried in the state to make the frame property
expressible. -/

/-- The repository's mutable state: the local cache plus the opaque
storage backend contents. -/
structure RepoState where
  cache : Cache
  backend : List (Checksum × Bytes)

/-- `LocalState.BlobExists` (`state.go:354-357`): `HasDelta` on the
cache, error discarded; returns the answer and the (unchanged)
repository state. -/
def blobExists (r : RepoState) (t : Nat) (cs : Checksum) : Bool × RepoState :=
  (hasDelta r.cache t cs, r)

/-! ## The fallible cache layer (claim C10)

`_RepositoryCache.get` sits on a leveldb database whose reads can
return data, `ErrNotFound`, or an I/O error
(`caching/repository.go:48-57`). -/

/-- Outcome of a raw leveldb `Get`. -/
inductive DbResult where
  | found (data : Bytes)
  | notFound
  | ioError (code : Nat)
deriving DecidableEq

/-- The underlying leveldb database, as a map from full keys (byte
strings, Go strings being byte slices) to read outcomes. -/
abbrev Db := Bytes → DbResult

/-- One lowercase hex digit (ASCII code), as produced by
`encoding/hex`. -/
def hexDigit (n : Nat) : Nat :=
  if n < 10 then 48 + n else 87 + n

/-- `hex.EncodeToString` over a byte string, as ASCII bytes. -/
def hexEncode (l : Bytes) : Bytes :=
  l.flatMap (fun b => [hexDigit (b / 16 % 16), hexDigit (b % 16)])

/-- ASCII of `"__delta__:"`. -/
def deltaPrefixBytes : Bytes :=
  [95, 95, 100, 101, 108, 116, 97, 95, 95, 58]

/-- ASCII decimal digits of a natural number (`fmt` `%d`). -/
def decimalBytes (n : Nat) : Bytes :=
  (Nat.toDigits 10 n).map Char.toNat

/-- The leveldb key of a delta entry, `"__delta__:%d:%x"`
(`caching/repository.go:102-103`). -/
def deltaKeyStr (t : Nat) (cs : Checksum) : Bytes :=
  deltaPrefixBytes ++ decimalBytes t ++ 58 :: hexEncode cs.val

/-- `_RepositoryCache.get` (`caching/repository.go:48-57`): a leveldb
`ErrNotFound` is mapped to a successful `(nil, nil)` result; any other
error is propagated. -/
def cacheGet (db : Db) (key : Bytes) : Except Nat (Option Bytes) :=
  match db key with
  | .found d => .ok (some d)
  | .notFound => .ok none
  | .ioError e => .error e

/-- `_RepositoryCache.GetDelta` (`caching/repository.go:102-104`). -/
def getDeltaDb (db : Db) (t : Nat) (cs : Checksum) : Except Nat (Option Bytes) :=
  cacheGet db (deltaKeyStr t cs)

/-- The Go zero value of `DeltaEntry`. -/
def zeroDeltaEntry : DeltaEntry := ⟨0, zeroChecksum, ⟨zeroChecksum, 0, 0⟩⟩

/-- `LocalState.GetSubpartForBlob` (`state.go:359-368`): the `GetDelta`
error is discarded (`delta, _ :=`), so a read error looks like missing
data; a `nil` delta yields a zero location with `found = false`. -/
def getSubpartForBlob (db : Db) (t : Nat) (cs : Checksum) :
    Checksum × Nat × Nat × Bool :=
  let delta : Option Bytes :=
    match getDeltaDb db t cs with
    | .ok d => d
    | .error _ => none
  match delta with
  | none => (zeroChecksum, 0, 0, false)
  | some d =>
    let de := (DeltaEntryFromBytes d).getD zeroDeltaEntry
    (de.location.packfile, de.location.offset, de.location.length, true)

/-! ## The `sync` subcommand (claims C6 and C7)

`cmd_sync` builds the two snapshot sets, filters by the optional hex
prefix, and synchronizes the difference; with direction `with` it then
repeats the computation with the roles swapped. -/

/-- The snapshot-selection loop of `cmd_sync`: keep each source
snapshot (sets are modelled by deduplicated lists, as Go builds a map)
whose hex id has the requested prefix (no filter when the prefix
argument is empty) and which is absent from the destination. -/
def selectMissing (src dst : List Checksum) (pfx : Bytes) : List Checksum :=
  src.dedup.filter (fun s =>
    (pfx = [] || pfx.isPrefixOf (hexEncode s.val)) && !(dst.contains s))

/-- The selection part of `cmd_sync`: which snapshots
get synchronized in each direction.  The first component flows from the
`src` repository to `dst` as assigned by the direction
keyword; the second component is the extra reverse pass performed only
for `with`.  An unknown direction is an error (exit 1). -/
def cmdSyncPlan (direction : String) (repoSnaps peerSnaps : List Checksum)
    (pfx : Bytes) : Option (List Checksum × List Checksum) :=
  if direction = "to" then some (selectMissing repoSnaps peerSnaps pfx, [])
  else if direction = "from" then some (selectMissing peerSnaps repoSnaps pfx, [])
  else if direction = "with" then
    some (selectMissing repoSnaps peerSnaps pfx, selectMissing peerSnaps repoSnaps pfx)
  else none

/-- The synchronization loop of `cmd_sync`: every
selected snapshot is attempted; a failing `synchronize` call is logged
(collected here) and the loop continues.  Returns the attempted
snapshots in order and the logged failures. -/
def runSyncBatch {E : Type} (sync1 : Checksum → Option E) :
    List Checksum → List Checksum × List (Checksum × E)
  | [] => ([], [])
  | s :: rest =>
    let r := runSyncBatch sync1 rest
    (s :: r.1, match sync1 s with
      | some e => (s, e) :: r.2
      | none => r.2)

/-- `cmd_sync` falls through to `return 0, nil` after the loop,
whatever the individual outcomes were. -/
def cmdSyncExitCode {E : Type} (sync1 : Checksum → Option E)
    (selected : List Checksum) : Nat :=
  let _ := runSyncBatch sync1 selected
  0

/-! ## Exporter backend dispatch (claim C8)

Locations and backend names are byte strings (Go strings are byte
slices); the scheme constants below are the ASCII bytes of the string
literals in `NewExporter`. -/

/-- `strings.Contains needle hay` over byte strings: the needle is a
prefix of some suffix of the haystack. -/
def containsSub (needle : Bytes) : Bytes → Bool
  | [] => needle.isEmpty
  | a :: t => needle.isPrefixOf (a :: t) || containsSub needle t

/-- ASCII of `"s3://"`. -/
def schemeS3 : Bytes := [115, 51, 58, 47, 47]
/-- ASCII of `"fs://"`. -/
def schemeFs : Bytes := [102, 115, 58, 47, 47]
/-- ASCII of `"ftp://"`. -/
def schemeFtp : Bytes := [102, 116, 112, 58, 47, 47]
/-- ASCII of `"sftp://"`. -/
def schemeSftp : Bytes := [115, 102, 116, 112, 58, 47, 47]
/-- ASCII of `"/"`. -/
def slashBytes : Bytes := [47]
/-- ASCII of `"://"`. -/
def schemeSepBytes : Bytes := [58, 47, 47]
/-- ASCII of `"s3"`. -/
def nameS3 : Bytes := [115, 51]
/-- ASCII of `"fs"`. -/
def nameFs : Bytes := [102, 115]
/-- ASCII of `"ftp"`. -/
def nameFtp : Bytes := [102, 116, 112]
/-- ASCII of `"sftp"`. -/
def nameSftp : Bytes := [115, 102, 116, 112]
/-- ASCII of `"location"`. -/
def locationKey : Bytes := [108, 111, 99, 97, 116, 105, 111, 110]

/-- The scheme dispatch of `NewExporter`
(`snapshot/exporter/exporter.go:59-78`). -/
def selectExporterBackend (location : Bytes) : Except String Bytes :=
  if !(slashBytes.isPrefixOf location) then
    if schemeS3.isPrefixOf location then .ok nameS3
    else if schemeFs.isPrefixOf location then .ok nameFs
    else if schemeFtp.isPrefixOf location then .ok nameFtp
    else if schemeSftp.isPrefixOf location then .ok nameSftp
    else if containsSub schemeSepBytes location then .error "unsupported exporter protocol"
    else .ok nameFs
  else .ok nameFs

/-- `NewExporter` (`snapshot/exporter/exporter.go:49-89`): a missing
`"location"` key is an error; otherwise dispatch on the scheme and look
the backend name up in the registry. -/
def newExporter (config : List (Bytes × Bytes)) (registered : List Bytes) :
    Except String Bytes :=
  match config.lookup locationKey with
  | none => .error "missing location"
  | some loc =>
    match selectExporterBackend loc with
    | .error e => .error e
    | .ok name =>
      if registered.contains name then .ok name
      else .error "backend does not exist"

/-! ## The `checksum` subcommand (claim C9) -/

/-- The regular-file branch of `displayChecksums`
(`checksum.go:101-120`): the printed digest is the object's recorded
checksum; without `-fast` the file is re-read and hashed
(`io.Copy(hasher, rd)`) but the recomputed digest is dropped.  `none`
models the error return when `snap.NewReader` fails; `some d` means the
line `SHA256 (path) = d` was printed. -/
def displayChecksumFor (recorded : Checksum) (reader : Option Bytes)
    (hashOf : Bytes → Checksum) (fastcheck : Bool) : Option Checksum :=
  let checksum := recorded
  if !fastcheck then
    match reader with
    | none => none
    | some content =>
      let _hashed := hashOf content
      some checksum
  else some checksum

/-! ## The B+tree iterators (`btree/iter.go`, claims C3 and C4)

`btree/iter.go` is generic over keys `K`, pointers `P` and values `V`,
with a node store `{Get : P → Node}`.  The `Node` structure, `isleaf`
and `findleaf` live in the package's core file, which is not part of
the sampled sources; they are modelled from the spec (§4.6): nodes hold
sorted keys, leaves hold `len(keys)` values plus a forward sibling
pointer, internal nodes hold `len(keys)+1` child pointers.

The imperative iterators are embedded as their denotations: the full
sequence of key/value pairs an iterator yields.  Iteration follows
pointers through the store, so the denotations take a fuel argument;
the theorems supply any fuel large enough for the tree at hand. -/

/-- `btree.Node` (modelled from the spec §4.6 and its uses in
`iter.go`): keys, values (leaves), child pointers (internal nodes) and
the forward sibling pointer `Next`. -/
structure BNode (K P V : Type) where
  keys : List K
  values : List V
  pointers : List P
  next : Option P

/-- The node store interface (`b.store.Get`); `none` is a store read
error. -/
abbrev NodeStore (K P V : Type) := P → Option (BNode K P V)

/-- Modelled from the spec: `Node.isleaf` — a node is a leaf when it
has no child pointers (spec §4.6: every internal node has
`len(keys)+1` children). -/
def BNode.isleaf {K P V : Type} (n : BNode K P V) : Bool :=
  n.pointers.isEmpty

/-- Denotation of `forwardIter` (`iter.go:17-50`): yield the current
node's key/value pairs in order, then follow the `Next` sibling
pointer; stop at the end of the chain (`Next == nil`) or on a store
read error. -/
def forwardCollect {K P V : Type} (store : NodeStore K P V) :
    Nat → Option P → List (K × V)
  | 0, _ => []
  | _ + 1, none => []
  | fuel + 1, some p =>
    match store p with
    | none => []
    | some n => n.keys.zip n.values ++ forwardCollect store fuel n.next

/-- The descent loop of `ScanAll` (`iter.go:54-69`): follow
`Pointers[0]` down to the first leaf. -/
def leftmostLeaf {K P V : Type} (store : NodeStore K P V) :
    Nat → P → Option P
  | 0, _ => none
  | fuel + 1, p =>
    match store p with
    | none => none
    | some n =>
      if n.isleaf then some p
      else
        match n.pointers with
        | [] => none
        | p0 :: _ => leftmostLeaf store fuel p0

/-- `BTree.ScanAll` (`iter.go:54-77`): descend to the leftmost leaf,
then iterate the sibling chain; a store error during the descent is an
error. -/
def scanAll {K P V : Type} (store : NodeStore K P V)
    (fuelDescent fuelChain : Nat) (root : P) : Option (List (K × V)) :=
  match leftmostLeaf store fuelDescent root with
  | none => none
  | some p => some (forwardCollect store fuelChain (some p))

/-- Denotation of `backwardIter` (`iter.go:127-201`): `dive` descends
along each node's last pointer (`Pointers[len(Keys)]`), leaves yield
their entries from the last index down to 0, and the rewind loop
visits an internal node's children `Pointers[len(Keys)] .. Pointers[0]`
in that order. -/
def backwardCollect {K P V : Type} (store : NodeStore K P V) :
    Nat → P → List (K × V)
  | 0, _ => []
  | fuel + 1, p =>
    match store p with
    | none => []
    | some n =>
      if n.isleaf then (n.keys.zip n.values).reverse
      else
        ((n.pointers.take (n.keys.length + 1)).reverse.map
          (backwardCollect store fuel)).flatten

/-- `BTree.ScanAllReverse` (`iter.go:203-213`). -/
def scanAllReverse {K P V : Type} (store : NodeStore K P V)
    (fuel : Nat) (root : P) : List (K × V) :=
  backwardCollect store fuel root

/-- The sibling-chain walk behind `findleaf`.  Modelled from the spec:
`findleaf(key)` returns the leaf where the first key `≥ key` lives (or
the last leaf when every key is smaller); the model locates it by
walking the leaf chain from the first leaf, which is extensionally the
contract of the separator-guided descent. -/
def walkToKey {K P V : Type} [LinearOrder K] (store : NodeStore K P V)
    (key : K) : Nat → P → Option P
  | 0, _ => none
  | fuel + 1, p =>
    match store p with
    | none => none
    | some n =>
      match n.next with
      | none => some p
      | some np =>
        if n.keys.any (fun k' => decide (key ≤ k')) then some p
        else walkToKey store key fuel np

/-- The body of `ScanFrom` after `findleaf` (`iter.go:82-120`): scan
the landed leaf for the first key `≥ key`; if found, yield from that
index onwards; otherwise either the iterator is empty (no next leaf) or
it starts at the beginning of the next leaf. -/
def scanFromLeaf {K P V : Type} [LinearOrder K] (store : NodeStore K P V)
    (fuelChain : Nat) (key : K) (p : P) : Option (List (K × V)) :=
  match store p with
  | none => none
  | some n =>
    let idx := n.keys.findIdx (fun k' => decide (key ≤ k'))
    if idx < n.keys.length then
      some ((n.keys.zip n.values).drop idx ++ forwardCollect store fuelChain n.next)
    else
      match n.next with
      | none => some []
      | some np =>
        match store np with
        | none => none
        | some n' =>
          some (n'.keys.zip n'.values ++ forwardCollect store fuelChain n'.next)

/-- `BTree.ScanFrom` (`iter.go:82-120`): `findleaf` (spec-modelled as
descent to the first leaf plus the chain walk), then the leaf-local
scan. -/
def scanFrom {K P V : Type} [LinearOrder K] (store : NodeStore K P V)
    (fuelDescent fuelWalk fuelChain : Nat) (key : K) (root : P) :
    Option (List (K × V)) :=
  match leftmostLeaf store fuelDescent root with
  | none => none
  | some p0 =>
    match walkToKey store key fuelWalk p0 with
    | none => none
    | some p => scanFromLeaf store fuelChain key p

/-! ### The shape invariant

A `STree` is the skeleton of a well-formed B+tree as laid out in the
store: which pointer holds which node, and how the leaves chain
together.  The invariant `STree.wf` states that the store agrees with
the skeleton; `chainedLeaves` states that the sibling pointers thread
the leaves left to right. -/

/-- One leaf as laid out in the store. -/
structure LeafRec (K V P : Type) where
  ptr : P
  keys : List K
  values : List V
  next : Option P

/-- The skeleton of a B+tree: every node with its pointer. -/
inductive STree (K V P : Type) where
  | leaf (ptr : P) (keys : List K) (values : List V) (next : Option P)
  | node (ptr : P) (children : List (STree K V P))

/-- The pointer under which a subtree's root node is stored. -/
def STree.rootPtr {K V P : Type} : STree K V P → P
  | .leaf p _ _ _ => p
  | .node p _ => p

/-- The leaves of a subtree, left to right. -/
def STree.leaves {K V P : Type} : STree K V P → List (LeafRec K V P)
  | .leaf p ks vs nx => [⟨p, ks, vs, nx⟩]
  | .node _ cs => (cs.attach.map (fun c => STree.leaves c.1)).flatten
decreasing_by
  have := List.sizeOf_lt_of_mem c.2
  simp only [STree.node.sizeOf_spec]
  omega

/-- The key/value sequence of a subtree, left to right. -/
def STree.fringe {K V P : Type} (t : STree K V P) : List (K × V) :=
  t.leaves.flatMap (fun l => l.keys.zip l.values)

/-- Length of the leftmost root-to-leaf path. -/
def STree.ldepth {K V P : Type} : STree K V P → Nat
  | .leaf _ _ _ _ => 0
  | .node _ [] => 0
  | .node _ (c :: _) => STree.ldepth c + 1
decreasing_by
  simp only [STree.node.sizeOf_spec, List.cons.sizeOf_spec]
  omega

/-- Height of a subtree. -/
def STree.depth {K V P : Type} : STree K V P → Nat
  | .leaf _ _ _ _ => 0
  | .node _ cs => 1 + ((cs.attach.map (fun c => STree.depth c.1)).foldr max 0)
decreasing_by
  have := List.sizeOf_lt_of_mem c.2
  simp only [STree.node.sizeOf_spec]
  omega

/-- The store lays the tree out as the skeleton says: leaves hold equal
numbers of keys and values (at least one), internal nodes hold their
children's pointers in order, one more pointer than keys, and at least
one child. -/
def STree.wf {K V P : Type} (store : NodeStore K P V) : STree K V P → Prop
  | .leaf p ks vs nx =>
      store p = some ⟨ks, vs, [], nx⟩ ∧ ks.length = vs.length ∧ 0 < ks.length
  | .node p cs =>
      (match store p with
       | none => False
       | some n => n.pointers = cs.map STree.rootPtr
          ∧ n.keys.length + 1 = cs.length)
      ∧ cs ≠ [] ∧ ∀ c ∈ cs.attach, STree.wf store c.1
decreasing_by
  have := List.sizeOf_lt_of_mem c.2
  simp only [STree.node.sizeOf_spec]
  omega

/-- The sibling pointers thread the given leaves in order, ending in
`e`. -/
def chainedLeaves {K V P : Type} : List (LeafRec K V P) → Option P → Prop
  | [], _ => True
  | [l], e => l.next = e
  | l :: l' :: rest, e => l.next = some l'.ptr ∧ chainedLeaves (l' :: rest) e

/-- Head pointer of a leaf chain: the first leaf's pointer, or the
chain's terminal pointer when the chain is empty. -/
def chainHeadPtr {K V P : Type} (L : List (LeafRec K V P)) (e : Option P) : Option P :=
  match L with
  | [] => e
  | l :: _ => some l.ptr

/-- The pointer of a subtree's leftmost leaf (junk default for a
childless internal node, which `STree.wf` excludes). -/
def STree.firstLeafPtr {K V P : Type} (t : STree K V P) : P :=
  match t.leaves with
  | [] => t.rootPtr
  | l :: _ => l.ptr

/-- Structural induction over `STree` with the membership-based
induction hypothesis for a node's children. -/
def STree.recMem {K V P : Type} {motive : STree K V P → Prop}
    (hleaf : ∀ p ks vs nx, motive (.leaf p ks vs nx))
    (hnode : ∀ p cs, (∀ c ∈ cs, motive c) → motive (.node p cs)) :
    ∀ t, motive t
  | .leaf p ks vs nx => hleaf p ks vs nx
  | .node p cs => hnode p cs (fun c hc => STree.recMem hleaf hnode c)
decreasing_by
  have := List.sizeOf_lt_of_mem hc
  simp only [STree.node.sizeOf_spec]
  omega

/-! ## Concrete sample data for the witnesses -/

/-- Sample root node: one separator key, two children. -/
def bnRoot : BNode Nat Nat Nat := ⟨[10], [], [2, 3], none⟩

/-- Sample left leaf. -/
def bnLeaf1 : BNode Nat Nat Nat := ⟨[1, 5], [100, 105], [], some 3⟩

/-- Sample right leaf. -/
def bnLeaf2 : BNode Nat Nat Nat := ⟨[10], [110], [], none⟩

/-- Sample node store: root at pointer 1, leaves at 2 and 3. -/
def store0 : NodeStore Nat Nat Nat := fun p =>
  if p = 1 then some bnRoot
  else if p = 2 then some bnLeaf1
  else if p = 3 then some bnLeaf2
  else none

/-- Skeleton of the sample tree. -/
def t0 : STree Nat Nat Nat :=
  .node 1 [.leaf 2 [1, 5] [100, 105] (some 3), .leaf 3 [10] [110] none]

def csA : Checksum := ⟨List.replicate 32 1, List.length_replicate 32 1⟩

def csB : Checksum := ⟨List.replicate 32 2, List.length_replicate 32 2⟩

def de0 : DeltaEntry := ⟨3, csA, ⟨csB, 5, 7⟩⟩

def md0 : Metadata := ⟨100, 1730000000000000000, false, [csB]⟩

def ls0 : LocalState := ⟨md0, [((3, csA), de0.toBytes)], []⟩

def ls1 : LocalState := ⟨md0, [((3, csA), de0.toBytes)], [(csA, md0)]⟩

theorem u32le_length (n : Nat) : (u32le n).length = 4 := rfl

theorem u64le_length (n : Nat) : (u64le n).length = 8 := rfl

theorem readU32_u32le (n : Nat) (h : n < 4294967296) : readU32 (u32le n) = n := by
  simp only [readU32, u32le, List.getD_cons_zero, List.getD_cons_succ]
  omega

theorem readU64_u64le (n : Nat) (h : n < 18446744073709551616) :
    readU64 (u64le n) = n := by
  simp only [readU64, u64le, List.getD_cons_zero, List.getD_cons_succ]
  omega

theorem u64ToInt64_int64ToU64 (i : Int)
    (hlo : -9223372036854775808 ≤ i) (hhi : i < 9223372036854775808) :
    u64ToInt64 (int64ToU64 i) = i := by
  unfold u64ToInt64 int64ToU64
  rcases le_or_lt 0 i with hpos | hneg
  · rw [Int.emod_eq_of_lt hpos (by omega)]
    rw [if_pos (by omega)]
    omega
  · have : i % (18446744073709551616 : Int) = i + 18446744073709551616 := by
      omega
    rw [this]
    rw [if_neg (by omega)]
    omega

theorem DeltaEntry.toBytes_length (de : DeltaEntry) :
    de.toBytes.length = DeltaEntrySerializedSize := by
  simp [DeltaEntry.toBytes, DeltaEntrySerializedSize, LocationSerializedSize,
    u32le, de.blob.property, de.location.packfile.property]

theorem DeltaEntryFromBytes_toBytes (de : DeltaEntry) (h : de.WF) :
    DeltaEntryFromBytes de.toBytes = some de := by
  obtain ⟨ht, ho, hl⟩ := h
  have hblob := de.blob.property
  have hpf := de.location.packfile.property
  show DeltaEntryFromBytes (de.type % 256 :: (de.blob.val ++ de.location.packfile.val
    ++ u32le de.location.offset ++ u32le de.location.length)) = some de
  rw [List.append_assoc, List.append_assoc]
  unfold DeltaEntryFromBytes
  dsimp only
  rw [List.take_left' hblob, List.drop_left' hblob,
    List.take_left' hpf, List.drop_left' hpf]
  rw [dif_pos hblob, dif_pos hpf,
    if_pos (by simp [u32le_length])]
  rw [List.take_left' (u32le_length _), List.drop_left' (u32le_length _),
    List.take_of_length_le (le_of_eq (u32le_length _))]
  rw [readU32_u32le _ ho, readU32_u32le _ hl]
  rcases de with ⟨ty, ⟨bl, hbl⟩, ⟨⟨pfl, hpfl⟩, off, len⟩⟩
  simp only at ht ⊢
  simp [Nat.mod_eq_of_lt ht]

theorem putDelta_of_not_mem (c : Cache) (t : Nat) (cs : Checksum) (d : Bytes)
    (h : (t, cs) ∉ c.map (·.1)) : putDelta c t cs d = c ++ [((t, cs), d)] := by
  rw [putDelta, if_neg]
  simp only [List.any_eq_true, decide_eq_true_eq, not_exists, not_and]
  intro kv hkv hk
  exact h (by simpa [hk] using List.mem_map_of_mem (·.1) hkv)

theorem insertAll_fresh (l : Cache) : ∀ a : Cache,
    (l.map (·.1)).Nodup → (∀ k ∈ l.map (·.1), k ∉ a.map (·.1)) →
    insertAll a l = a ++ l := by
  induction l with
  | nil => intro a _ _; simp [insertAll]
  | cons kv rest ih =>
    intro a hnd hdisj
    have hk : kv.1 ∉ a.map (·.1) := hdisj kv.1 (by simp)
    have step : insertAll a (kv :: rest) = insertAll (a ++ [kv]) rest := by
      simp only [insertAll, List.foldl_cons]
      rw [putDelta_of_not_mem a kv.1.1 kv.1.2 kv.2 (by simpa using hk)]
    rw [step, ih (a ++ [kv]) (by simpa using hnd.of_cons)]
    · simp
    · intro k hkmem
      have hne : k ≠ kv.1 := by
        intro he
        exact (List.nodup_cons.mp (by simpa using hnd)).1 (he ▸ hkmem)
      have hnota : k ∉ a.map (·.1) := hdisj k (by simp [hkmem])
      simp only [List.map_append, List.mem_append]
      rintro (h | h)
      · exact hnota h
      · simp only [List.map_cons, List.map_nil, List.mem_singleton] at h
        exact hne h

theorem readEntries_serialized (l : Cache) : ∀ (a : Cache) (tail : Bytes),
    CacheWF l →
    readEntries (l.flatMap (fun kv => ET_LOCATIONS :: kv.2) ++ ET_METADATA :: tail) a
      = some (insertAll a l, tail) := by
  induction l with
  | nil =>
    intro a tail _
    simp [readEntries, insertAll, ET_METADATA]
  | cons kv rest ih =>
    intro a tail hwf
    obtain ⟨de, hdeWF, hval, hkey⟩ := hwf kv (by simp)
    have hlen : kv.2.length = DeltaEntrySerializedSize := by
      rw [hval]; exact de.toBytes_length
    simp only [List.flatMap_cons, List.cons_append, List.append_assoc]
    rw [readEntries]
    rw [if_neg (by simp [ET_LOCATIONS, ET_METADATA])]
    rw [dif_pos (by simp [List.length_append, hlen])]
    rw [List.take_left' hlen, List.drop_left' hlen]
    rw [hval, DeltaEntryFromBytes_toBytes de hdeWF]
    dsimp only
    have : putDelta a de.type de.blob de.toBytes
        = putDelta a kv.1.1 kv.1.2 kv.2 := by
      rw [hval, hkey]
    rw [this]
    rw [ih (putDelta a kv.1.1 kv.1.2 kv.2) tail
      (fun x hx => hwf x (List.mem_cons_of_mem kv hx))]
    rfl

theorem readChecksums_serialized (cs : List Checksum) : ∀ tail : Bytes,
    readChecksums cs.length (cs.flatMap (·.val) ++ tail) = some (cs, tail) := by
  induction cs with
  | nil => intro tail; simp [readChecksums]
  | cons c rest ih =>
    intro tail
    have hc := c.property
    simp only [List.flatMap_cons, List.append_assoc, List.length_cons]
    rw [readChecksums]
    simp only [List.take_left' hc, List.drop_left' hc]
    rw [dif_pos hc, ih tail]
    rfl

theorem parseMetadataTail_roundtrip (md : Metadata) (hmd : MetadataWF md)
    (tail : Bytes) :
    parseMetadataTail (metadataRecordBody md ++ tail) = some (md, tail) := by
  obtain ⟨hv, hlo, hhi, hext⟩ := hmd
  unfold parseMetadataTail metadataRecordBody
  simp only [List.append_assoc]
  rw [if_pos (by simp [u32le_length]),
    List.take_left' (u32le_length _), List.drop_left' (u32le_length _)]
  rw [if_pos (by simp [u64le_length]),
    List.take_left' (u64le_length _), List.drop_left' (u64le_length _)]
  simp only [List.singleton_append, List.cons_append, List.nil_append]
  rw [if_pos (by simp [u64le_length]),
    List.take_left' (u64le_length _), List.drop_left' (u64le_length _)]
  have hint : int64ToU64 md.timestampNs < 18446744073709551616 := by
    unfold int64ToU64
    omega
  rw [readU64_u64le _ hext, readChecksums_serialized md.extendsIds tail]
  dsimp only
  rw [readU32_u32le _ hv, readU64_u64le _ hint, u64ToInt64_int64ToU64 _ hlo hhi]
  rcases md with ⟨v, ts, agg, ext⟩
  cases agg <;> simp

/-- C1.  State-file serialization round-trip: the stream produced by
`SerializeToStream` is, for each cached delta entry, a 1-byte
`ET_LOCATIONS` tag followed by exactly 73 bytes, terminated by the
`ET_METADATA` tag and the metadata record (version, nanosecond
timestamp, aggregate flag, extends list in order); deserializing that
stream into an empty cache reconstructs exactly the same delta entries
and the same metadata. -/
theorem state_stream_roundtrip (ls : LocalState)
    (hwf : CacheWF ls.deltas) (hnd : (ls.deltas.map (·.1)).Nodup)
    (hmd : MetadataWF ls.metadata) :
    serializeToStream ls
        = ls.deltas.flatMap (fun kv => ET_LOCATIONS :: kv.2)
          ++ ET_METADATA :: metadataRecordBody ls.metadata
      ∧ (∀ kv ∈ ls.deltas, kv.2.length = 73)
      ∧ deserializeFromStream [] (serializeToStream ls)
          = some (ls.deltas, ls.metadata) := by
  refine ⟨rfl, ?_, ?_⟩
  · intro kv hkv
    obtain ⟨de, _, hval, _⟩ := hwf kv hkv
    rw [hval, de.toBytes_length]
    rfl
  · unfold deserializeFromStream serializeToStream
    rw [show serializeMetadataTail ls.metadata
        = ET_METADATA :: metadataRecordBody ls.metadata from rfl]
    have h1 : readEntries
        (ls.deltas.flatMap (fun kv => ET_LOCATIONS :: kv.2)
          ++ ET_METADATA :: metadataRecordBody ls.metadata) []
        = some (insertAll [] ls.deltas, metadataRecordBody ls.metadata) :=
      readEntries_serialized ls.deltas [] (metadataRecordBody ls.metadata) hwf
    rw [h1]
    have h2 : insertAll [] ls.deltas = ls.deltas := by
      have := insertAll_fresh ls.deltas [] hnd (by simp)
      simpa using this
    have h3 : parseMetadataTail (metadataRecordBody ls.metadata ++ [])
        = some (ls.metadata, []) :=
      parseMetadataTail_roundtrip ls.metadata hmd []
    rw [List.append_nil] at h3
    dsimp only
    rw [h2, h3]

/-- C1 witness: the round trip evaluated on a one-entry state. -/
theorem state_stream_roundtrip_witness :
    deserializeFromStream [] (serializeToStream ls0) = some (ls0.deltas, ls0.metadata) :=
  (state_stream_roundtrip ls0
    (by
      intro kv hkv
      simp only [ls0, List.mem_singleton] at hkv
      exact ⟨de0, by decide, by rw [hkv], by rw [hkv]; decide⟩)
    (by simp [ls0])
    (by constructor; decide; constructor; decide; constructor; decide; decide)).2.2

theorem putDelta_idem (c : Cache) (t : Nat) (cs : Checksum) (d : Bytes) :
    putDelta (putDelta c t cs d) t cs d = putDelta c t cs d := by
  unfold putDelta
  by_cases h : c.any (fun kv => kv.1 = (t, cs)) = true
  · rw [if_pos h]
    have hpres : ((c.map (fun kv => if kv.1 = (t, cs) then ((t, cs), d) else kv)).any
        (fun kv => kv.1 = (t, cs))) = true := by
      rw [List.any_map]
      rcases List.any_eq_true.mp h with ⟨kv, hkv, hk⟩
      refine List.any_eq_true.mpr ⟨kv, hkv, ?_⟩
      simpa [Function.comp] using by simp [decide_eq_true_eq.mp hk]
    rw [if_pos hpres, List.map_map]
    refine List.map_eq_map_iff.mpr ?_
    intro kv _
    by_cases hk : kv.1 = (t, cs) <;> simp [Function.comp, hk]
  · rw [if_neg h]
    have hpres : ((c ++ [((t, cs), d)]).any (fun kv => kv.1 = (t, cs))) = true := by
      simp
    rw [if_pos hpres, List.map_append]
    have h1 : c.map (fun kv => if kv.1 = (t, cs) then ((t, cs), d) else kv) = c := by
      conv_rhs => rw [← List.map_id c]
      refine List.map_eq_map_iff.mpr ?_
      intro kv hkv
      have : ¬ (kv.1 = (t, cs)) := by
        intro he
        exact h (List.any_eq_true.mpr ⟨kv, hkv, by simp [he]⟩)
      simp [this]
    rw [h1]
    simp

/-- C2.  State merge is idempotent: with the state id already recorded,
`InsertState` succeeds without consuming the stream and leaves the
local state unchanged; re-inserting an identical delta entry leaves the
delta index unchanged. -/
theorem insertState_putDelta_idempotent (ls : LocalState) (sid : Checksum)
    (rd rd' : Bytes) (c : Cache) (t : Nat) (b : Checksum) (d : Bytes)
    (h : hasState ls sid = true) :
    insertState ls sid rd = some ls
    ∧ insertState ls sid rd = insertState ls sid rd'
    ∧ putDelta (putDelta c t b d) t b d = putDelta c t b d := by
  refine ⟨?_, ?_, putDelta_idem c t b d⟩
  · unfold insertState
    rw [if_pos h]
  · unfold insertState
    rw [if_pos h, if_pos h]

/-- C2 witness. -/
theorem insertState_putDelta_idempotent_witness :
    insertState ls1 csA [9] = some ls1
    ∧ insertState ls1 csA [9] = insertState ls1 csA []
    ∧ putDelta (putDelta [] 3 csA [1]) 3 csA [1] = putDelta [] 3 csA [1] :=
  insertState_putDelta_idempotent ls1 csA [9] [] [] 3 csA [1] (by decide)

/-- C5.  `BlobExists` is a pure cache lookup: it returns `true` exactly
when a delta entry for the `(type, checksum)` pair is cached, leaves
the repository state unchanged, and its answer does not depend on the
backend contents. -/
theorem blobExists_pure_cache_lookup (r : RepoState) (t : Nat) (cs : Checksum)
    (b' : List (Checksum × Bytes)) :
    (blobExists r t cs).2 = r
    ∧ ((blobExists r t cs).1 = true ↔ ∃ d, ((t, cs), d) ∈ r.cache)
    ∧ (blobExists ⟨r.cache, b'⟩ t cs).1 = (blobExists r t cs).1 := by
  refine ⟨rfl, ?_, rfl⟩
  simp only [blobExists, hasDelta, List.any_eq_true, decide_eq_true_eq]
  constructor
  · rintro ⟨kv, hkv, hk⟩
    exact ⟨kv.2, by rwa [← hk, Prod.mk.eta]⟩
  · rintro ⟨d, hd⟩
    exact ⟨((t, cs), d), hd, rfl⟩

/-- C6.  Sync snapshot selection: direction `to` synchronizes exactly
the snapshots present in the source, absent from the destination, and
matching the optional hex-id prefix; direction `with` performs the same
selection in both directions, symmetrically. -/
theorem syncSelection_correct (R P : List Checksum) (pfx : Bytes)
    (s : Checksum) :
    cmdSyncPlan "to" R P pfx = some (selectMissing R P pfx, [])
    ∧ cmdSyncPlan "with" R P pfx
        = some (selectMissing R P pfx, selectMissing P R pfx)
    ∧ cmdSyncPlan "with" P R pfx
        = some (selectMissing P R pfx, selectMissing R P pfx)
    ∧ (s ∈ selectMissing R P pfx
        ↔ s ∈ R ∧ s ∉ P ∧ (pfx = [] ∨ pfx.isPrefixOf (hexEncode s.val) = true)) := by
  refine ⟨rfl, rfl, rfl, ?_⟩
  simp only [selectMissing, List.mem_filter, List.mem_dedup, Bool.and_eq_true,
    Bool.or_eq_true, decide_eq_true_eq, Bool.not_eq_true']
  have hcon : (P.contains s = false) ↔ s ∉ P := by
    simp
  rw [hcon]
  tauto

/-- C7.  Sync error containment: every selected snapshot is attempted
in order whatever the per-snapshot outcomes are, each failure is
logged, and `cmd_sync` still exits with status 0. -/
theorem syncErrorContainment {E : Type} (f : Checksum → Option E)
    (l : List Checksum) (s : Checksum) (e : E) :
    (runSyncBatch f l).1 = l
    ∧ cmdSyncExitCode f l = 0
    ∧ (s ∈ l → f s = some e → (s, e) ∈ (runSyncBatch f l).2) := by
  refine ⟨?_, rfl, ?_⟩
  · induction l with
    | nil => rfl
    | cons a rest ih => simp [runSyncBatch, ih]
  · induction l with
    | nil => intro h; simp at h
    | cons a rest ih =>
      intro hmem hf
      rcases List.mem_cons.mp hmem with he | hrest
      · subst he
        simp [runSyncBatch, hf]
      · have hmem2 := ih hrest hf
        simp only [runSyncBatch]
        cases hfa : f a
        · simpa [hfa] using hmem2
        · simp only [hfa]
          exact List.mem_cons_of_mem _ hmem2

/-- C7 witness: a failing snapshot is logged and the batch completes
with exit code 0. -/
theorem syncErrorContainment_witness :
    (runSyncBatch (fun c => if c = csA then some 0 else none) [csA, csB]).1 = [csA, csB]
    ∧ cmdSyncExitCode (fun c => if c = csA then some 0 else none) [csA, csB] = 0
    ∧ (csA, 0) ∈ (runSyncBatch (fun c => if c = csA then some 0 else none) [csA, csB]).2 := by
  have h := syncErrorContainment (fun c => if c = csA then some 0 else none)
    [csA, csB] csA 0
  exact ⟨h.1, h.2.1, h.2.2 (by simp) (by simp)⟩

theorem containsSub_sep_of_append (p : Bytes) (u : Bytes)
    (hp : containsSub schemeSepBytes p = true) :
    containsSub schemeSepBytes (p ++ u) = true := by
  induction p with
  | nil => simp [containsSub, schemeSepBytes] at hp
  | cons a t ih =>
    simp only [containsSub, Bool.or_eq_true] at hp ⊢
    rcases hp with hpre | hrest
    · left
      rcases List.isPrefixOf_iff_prefix.mp hpre with ⟨v, hv⟩
      refine List.isPrefixOf_iff_prefix.mpr ⟨v ++ u, ?_⟩
      rw [← List.append_assoc, hv]
      rfl
    · right
      exact ih hrest

/-- C8.  Exporter backend dispatch by URI scheme: `s3://`, `fs://`,
`ftp://`, `sftp://` select the homonymous backend; an absolute path or
a location without `"://"` selects `fs`; any other location containing
`"://"` is rejected; a config without a `"location"` key is an
error. -/
theorem exporterDispatch (loc : Bytes) (config : List (Bytes × Bytes))
    (registered : List Bytes) :
    (schemeS3.isPrefixOf loc = true → selectExporterBackend loc = .ok nameS3)
    ∧ (schemeFs.isPrefixOf loc = true → selectExporterBackend loc = .ok nameFs)
    ∧ (schemeFtp.isPrefixOf loc = true → selectExporterBackend loc = .ok nameFtp)
    ∧ (schemeSftp.isPrefixOf loc = true → selectExporterBackend loc = .ok nameSftp)
    ∧ (slashBytes.isPrefixOf loc = true → selectExporterBackend loc = .ok nameFs)
    ∧ (containsSub schemeSepBytes loc = false → selectExporterBackend loc = .ok nameFs)
    ∧ (containsSub schemeSepBytes loc = true →
        schemeS3.isPrefixOf loc = false →
        schemeFs.isPrefixOf loc = false →
        schemeFtp.isPrefixOf loc = false →
        schemeSftp.isPrefixOf loc = false →
        slashBytes.isPrefixOf loc = false →
        selectExporterBackend loc = .error "unsupported exporter protocol")
    ∧ (config.lookup locationKey = none →
        newExporter config registered = .error "missing location") := by
  refine ⟨?_, ?_, ?_, ?_, ?_, ?_, ?_, ?_⟩
  · intro h
    obtain ⟨t, rfl⟩ := List.isPrefixOf_iff_prefix.mp h
    simp [selectExporterBackend, schemeS3, slashBytes, List.isPrefixOf]
  · intro h
    obtain ⟨t, rfl⟩ := List.isPrefixOf_iff_prefix.mp h
    simp [selectExporterBackend, schemeS3, schemeFs, slashBytes, List.isPrefixOf]
  · intro h
    obtain ⟨t, rfl⟩ := List.isPrefixOf_iff_prefix.mp h
    simp [selectExporterBackend, schemeS3, schemeFs, schemeFtp, slashBytes,
      List.isPrefixOf]
  · intro h
    obtain ⟨t, rfl⟩ := List.isPrefixOf_iff_prefix.mp h
    simp [selectExporterBackend, schemeS3, schemeFs, schemeFtp, schemeSftp,
      slashBytes, List.isPrefixOf]
  · intro h
    obtain ⟨t, rfl⟩ := List.isPrefixOf_iff_prefix.mp h
    simp [selectExporterBackend, slashBytes, List.isPrefixOf]
  · intro h
    unfold selectExporterBackend
    cases hsl : slashBytes.isPrefixOf loc
    · have hs3 : schemeS3.isPrefixOf loc = false := by
        cases hv : schemeS3.isPrefixOf loc
        · rfl
        · obtain ⟨t, rfl⟩ := List.isPrefixOf_iff_prefix.mp hv
          rw [containsSub_sep_of_append schemeS3 t
            (by simp [containsSub, schemeSepBytes, schemeS3, List.isPrefixOf,
              List.isPrefixOf_nil_left])] at h
          exact absurd h (by simp)
      have hfs : schemeFs.isPrefixOf loc = false := by
        cases hv : schemeFs.isPrefixOf loc
        · rfl
        · obtain ⟨t, rfl⟩ := List.isPrefixOf_iff_prefix.mp hv
          rw [containsSub_sep_of_append schemeFs t
            (by simp [containsSub, schemeSepBytes, schemeFs, List.isPrefixOf,
              List.isPrefixOf_nil_left])] at h
          exact absurd h (by simp)
      have hftp : schemeFtp.isPrefixOf loc = false := by
        cases hv : schemeFtp.isPrefixOf loc
        · rfl
        · obtain ⟨t, rfl⟩ := List.isPrefixOf_iff_prefix.mp hv
          rw [containsSub_sep_of_append schemeFtp t
            (by simp [containsSub, schemeSepBytes, schemeFtp, List.isPrefixOf,
              List.isPrefixOf_nil_left])] at h
          exact absurd h (by simp)
      have hsftp : schemeSftp.isPrefixOf loc = false := by
        cases hv : schemeSftp.isPrefixOf loc
        · rfl
        · obtain ⟨t, rfl⟩ := List.isPrefixOf_iff_prefix.mp hv
          rw [containsSub_sep_of_append schemeSftp t
            (by simp [containsSub, schemeSepBytes, schemeSftp, List.isPrefixOf,
              List.isPrefixOf_nil_left])] at h
          exact absurd h (by simp)
      simp only [hs3, hfs, hftp, hsftp, h]
      simp
    · simp
  · intro h hs3 hfs hftp hsftp hsl
    unfold selectExporterBackend
    rw [hsl, hs3, hfs, hftp, hsftp, h]
    rfl
  · intro h
    unfold newExporter
    rw [h]

/-- C8 witness: dispatch evaluated on concrete locations. -/
theorem exporterDispatch_witness :
    selectExporterBackend (schemeS3 ++ [98]) = .ok nameS3
    ∧ selectExporterBackend [104, 116, 116, 112, 58, 47, 47, 120]
        = .error "unsupported exporter protocol"
    ∧ newExporter [] [] = .error "missing location" := by
  have h1 := (exporterDispatch (schemeS3 ++ [98]) [] []).1 (by decide)
  have h2 := (exporterDispatch [104, 116, 116, 112, 58, 47, 47, 120] [] []).2.2.2.2.2.2.1
    (by decide) (by decide) (by decide) (by decide) (by decide) (by decide)
  have h3 := (exporterDispatch [] ([] : List (Bytes × Bytes)) []).2.2.2.2.2.2.2 (by decide)
  exact ⟨h1, h2, h3⟩

/-- C9.  The digest printed by the `checksum` command is the object's
recorded checksum, with or without `-fast`; the digest recomputed from
the file contents (when `-fast` is off) is discarded: the output does
not depend on the hash function at all. -/
theorem checksumDisplaysRecorded (recorded : Checksum) (reader : Option Bytes)
    (hashA hashB : Bytes → Checksum) (fastcheck : Bool) (d : Checksum) :
    displayChecksumFor recorded reader hashA fastcheck
        = displayChecksumFor recorded reader hashB fastcheck
    ∧ (displayChecksumFor recorded reader hashA fastcheck = some d → d = recorded)
    ∧ displayChecksumFor recorded reader hashA true = some recorded := by
  refine ⟨rfl, ?_, rfl⟩
  unfold displayChecksumFor
  cases fastcheck
  · cases reader
    · intro h; simp at h
    · intro h; simp at h; exact h.symm
  · intro h; simp at h; exact h.symm

/-- C9 witness. -/
theorem checksumDisplaysRecorded_witness : csA = csA :=
  (checksumDisplaysRecorded csA (some [1, 2]) (fun _ => csB) (fun _ => csA)
    false csA).2.1 rfl

/-- C10.  Missing cache entries never surface as errors: a leveldb
`ErrNotFound` is mapped by the cache `get` to a successful `(nil, nil)`
result, and `GetSubpartForBlob` reports `found = false` with a
zero-valued location both for a missing entry and for a cache read
error. -/
theorem missingCacheEntriesNotErrors (db : Db) (t : Nat) (cs : Checksum) (e : Nat) :
    (db (deltaKeyStr t cs) = .notFound →
      getDeltaDb db t cs = .ok none
      ∧ getSubpartForBlob db t cs = (zeroChecksum, 0, 0, false))
    ∧ (db (deltaKeyStr t cs) = .ioError e →
      getSubpartForBlob db t cs = (zeroChecksum, 0, 0, false)) := by
  constructor
  · intro h
    constructor
    · unfold getDeltaDb cacheGet
      rw [h]
    · unfold getSubpartForBlob getDeltaDb cacheGet
      rw [h]
  · intro h
    unfold getSubpartForBlob getDeltaDb cacheGet
    rw [h]

/-- C10 witness: evaluated against a database that reports not-found
everywhere and one that always fails. -/
theorem missingCacheEntriesNotErrors_witness :
    (getDeltaDb (fun _ => .notFound) 3 csA = .ok none
      ∧ getSubpartForBlob (fun _ => .notFound) 3 csA = (zeroChecksum, 0, 0, false))
    ∧ getSubpartForBlob (fun _ => .ioError 5) 3 csA = (zeroChecksum, 0, 0, false) :=
  ⟨(missingCacheEntriesNotErrors (fun _ => .notFound) 3 csA 5).1 rfl,
   (missingCacheEntriesNotErrors (fun _ => .ioError 5) 3 csA 5).2 rfl⟩

/-! ### B+tree lemmas (claims C3 and C4) -/

theorem STree.leaves_leaf {K V P : Type} (p : P) (ks : List K) (vs : List V)
    (nx : Option P) :
    (STree.leaf p ks vs nx : STree K V P).leaves = [⟨p, ks, vs, nx⟩] := by
  simp [STree.leaves]

theorem STree.leaves_node {K V P : Type} (p : P) (cs : List (STree K V P)) :
    (STree.node p cs : STree K V P).leaves = (cs.map STree.leaves).flatten := by
  rw [STree.leaves, List.attach_map_val]

theorem STree.wf_node_iff {K V P : Type} (store : NodeStore K P V) (p : P)
    (cs : List (STree K V P)) :
    (STree.node p cs : STree K V P).wf store ↔
      ((match store p with
        | none => False
        | some n => n.pointers = cs.map STree.rootPtr
            ∧ n.keys.length + 1 = cs.length)
       ∧ cs ≠ [] ∧ ∀ c ∈ cs, STree.wf store c) := by
  rw [STree.wf]
  constructor
  · rintro ⟨h1, h2, h3⟩
    exact ⟨h1, h2, fun c hc => h3 ⟨c, hc⟩ (List.mem_attach _ _)⟩
  · rintro ⟨h1, h2, h3⟩
    exact ⟨h1, h2, fun c _ => h3 c.1 c.2⟩

theorem STree.wf_leaf_iff {K V P : Type} (store : NodeStore K P V) (p : P)
    (ks : List K) (vs : List V) (nx : Option P) :
    (STree.leaf p ks vs nx : STree K V P).wf store ↔
      (store p = some ⟨ks, vs, [], nx⟩ ∧ ks.length = vs.length ∧ 0 < ks.length) := by
  rw [STree.wf]

theorem leaves_facts {K V P : Type} (store : NodeStore K P V) (t : STree K V P) :
    t.wf store → ∀ l ∈ t.leaves,
      store l.ptr = some ⟨l.keys, l.values, [], l.next⟩
        ∧ l.keys.length = l.values.length ∧ 0 < l.keys.length := by
  induction t using STree.recMem with
  | hleaf p ks vs nx =>
    intro hwf l hl
    rw [STree.leaves_leaf] at hl
    rw [STree.wf_leaf_iff] at hwf
    rcases List.mem_singleton.mp hl with rfl
    exact hwf
  | hnode p cs ih =>
    intro hwf l hl
    rw [STree.leaves_node] at hl
    rcases List.mem_flatten.mp hl with ⟨ls, hls, hlmem⟩
    rcases List.mem_map.mp hls with ⟨c, hc, rfl⟩
    exact ih c hc (((STree.wf_node_iff store p cs).mp hwf).2.2 c hc) l hlmem

theorem leaves_ne_nil {K V P : Type} (store : NodeStore K P V) (t : STree K V P) :
    t.wf store → t.leaves ≠ [] := by
  induction t using STree.recMem with
  | hleaf p ks vs nx =>
    intro _
    rw [STree.leaves_leaf]
    simp
  | hnode p cs ih =>
    intro hwf
    rcases (STree.wf_node_iff store p cs).mp hwf with ⟨_, hne, hall⟩
    rcases cs with _ | ⟨c, rest⟩
    · exact absurd rfl hne
    · rw [STree.leaves_node]
      intro hcon
      have hcne := ih c (by simp) (hall c (by simp))
      have : STree.leaves c ∈ (List.map STree.leaves (c :: rest)) := by simp
      rcases List.flatten_eq_nil_iff.mp hcon _ this with h
      exact hcne h

theorem firstLeafPtr_node {K V P : Type} (store : NodeStore K P V) (p : P)
    (c : STree K V P) (rest : List (STree K V P)) (hwfc : c.wf store) :
    (STree.node p (c :: rest) : STree K V P).firstLeafPtr = c.firstLeafPtr := by
  unfold STree.firstLeafPtr
  rw [STree.leaves_node]
  rcases hlv : c.leaves with _ | ⟨l, ls⟩
  · exact absurd hlv (leaves_ne_nil store c hwfc)
  · simp [hlv]

theorem leftmostLeaf_eq {K V P : Type} (store : NodeStore K P V) (t : STree K V P) :
    t.wf store → ∀ fuel : Nat,
      leftmostLeaf store (fuel + t.ldepth + 1) t.rootPtr = some t.firstLeafPtr := by
  induction t using STree.recMem with
  | hleaf p ks vs nx =>
    intro hwf fuel
    rw [STree.wf_leaf_iff] at hwf
    show leftmostLeaf store (fuel + STree.ldepth _ + 1) p = _
    rw [STree.ldepth]
    rw [leftmostLeaf]
    rw [hwf.1]
    dsimp only
    have hleafb : (⟨ks, vs, [], nx⟩ : BNode K P V).isleaf = true := rfl
    rw [hleafb]
    simp [STree.firstLeafPtr, STree.leaves_leaf, STree.rootPtr]
  | hnode p cs ih =>
    intro hwf fuel
    rcases (STree.wf_node_iff store p cs).mp hwf with ⟨hstore, hne, hall⟩
    rcases cs with _ | ⟨c, rest⟩
    · exact absurd rfl hne
    rcases hsp : store p with _ | n
    · rw [hsp] at hstore; exact absurd hstore (by simp)
    rw [hsp] at hstore
    obtain ⟨hptrs, _⟩ := hstore
    show leftmostLeaf store (fuel + STree.ldepth _ + 1) p = _
    rw [STree.ldepth]
    have harith : fuel + (STree.ldepth c + 1) + 1 = (fuel + STree.ldepth c + 1) + 1 := by
      omega
    rw [harith, leftmostLeaf, hsp]
    dsimp only
    have hnl : n.isleaf = false := by
      unfold BNode.isleaf
      rw [hptrs]
      simp
    rw [hnl]
    simp only [Bool.false_eq_true, if_false]
    rw [hptrs]
    simp only [List.map_cons]
    rw [ih c (by simp) (hall c (by simp)) fuel]
    rw [firstLeafPtr_node store p c rest (hall c (by simp))]

theorem forwardCollect_none {K P V : Type} (store : NodeStore K P V) (fuel : Nat) :
    forwardCollect store fuel none = [] := by
  cases fuel <;> rfl

theorem forwardCollect_chain {K P V : Type} (store : NodeStore K P V) :
    ∀ (L : List (LeafRec K V P)) (e : Option P),
    (∀ l ∈ L, store l.ptr = some ⟨l.keys, l.values, [], l.next⟩) →
    chainedLeaves L e →
    ∀ fuel : Nat,
    forwardCollect store (fuel + L.length) (chainHeadPtr L e)
      = L.flatMap (fun l => l.keys.zip l.values) ++ forwardCollect store fuel e := by
  intro L
  induction L with
  | nil =>
    intro e _ _ fuel
    simp [chainHeadPtr]
  | cons l L' ih =>
    intro e hfacts hch fuel
    have hfact := hfacts l (by simp)
    show forwardCollect store (fuel + (L'.length + 1)) (chainHeadPtr (l :: L') e) = _
    have hhd : chainHeadPtr (l :: L') e = some l.ptr := rfl
    have harith : fuel + (L'.length + 1) = (fuel + L'.length) + 1 := by omega
    rw [hhd, harith, forwardCollect, hfact]
    dsimp only
    have hnext : l.next = chainHeadPtr L' e := by
      rcases L' with _ | ⟨l', rest⟩
      · exact hch
      · exact hch.1
    have hch' : chainedLeaves L' e := by
      rcases L' with _ | ⟨l', rest⟩
      · trivial
      · exact hch.2
    rw [hnext, ih e (fun x hx => hfacts x (by simp [hx])) hch' fuel]
    simp [List.flatMap_cons, List.append_assoc]

theorem flatMap_flatten {α β : Type} (L : List (List α)) (f : α → List β) :
    L.flatten.flatMap f = (L.map (fun l => l.flatMap f)).flatten := by
  induction L with
  | nil => simp
  | cons a t ih => simp [ih]

theorem fringe_node {K V P : Type} (p : P) (cs : List (STree K V P)) :
    (STree.node p cs : STree K V P).fringe = (cs.map STree.fringe).flatten := by
  unfold STree.fringe
  rw [STree.leaves_node, flatMap_flatten, List.map_map]
  rfl

theorem fringe_leaf {K V P : Type} (p : P) (ks : List K) (vs : List V)
    (nx : Option P) :
    (STree.leaf p ks vs nx : STree K V P).fringe = ks.zip vs := by
  unfold STree.fringe
  rw [STree.leaves_leaf]
  simp

theorem le_foldr_max (l : List Nat) (x : Nat) (h : x ∈ l) :
    x ≤ l.foldr max 0 := by
  induction l with
  | nil => simp at h
  | cons a t ih =>
    rcases List.mem_cons.mp h with rfl | hm
    · exact le_max_left _ _
    · exact le_trans (ih hm) (le_max_right _ _)

theorem depth_child_lt {K V P : Type} (p : P) (cs : List (STree K V P))
    (c : STree K V P) (hc : c ∈ cs) :
    c.depth < (STree.node p cs : STree K V P).depth := by
  rw [STree.depth, List.attach_map_val]
  have : c.depth ∈ cs.map STree.depth := List.mem_map_of_mem _ hc
  have := le_foldr_max _ _ this
  omega

theorem backwardCollect_eq {K V P : Type} (store : NodeStore K P V)
    (t : STree K V P) :
    t.wf store → ∀ fuel : Nat, t.depth < fuel →
      backwardCollect store fuel t.rootPtr = t.fringe.reverse := by
  induction t using STree.recMem with
  | hleaf p ks vs nx =>
    intro hwf fuel hfuel
    rw [STree.wf_leaf_iff] at hwf
    rcases fuel with _ | f
    · omega
    show backwardCollect store (f + 1) p = _
    rw [backwardCollect, hwf.1]
    dsimp only
    have hleafb : (⟨ks, vs, [], nx⟩ : BNode K P V).isleaf = true := rfl
    rw [hleafb]
    simp [fringe_leaf]
  | hnode p cs ih =>
    intro hwf fuel hfuel
    rcases (STree.wf_node_iff store p cs).mp hwf with ⟨hstore, hne, hall⟩
    rcases hsp : store p with _ | n
    · rw [hsp] at hstore; exact absurd hstore (by simp)
    rw [hsp] at hstore
    obtain ⟨hptrs, hlen⟩ := hstore
    rcases fuel with _ | f
    · omega
    show backwardCollect store (f + 1) p = _
    rw [backwardCollect, hsp]
    dsimp only
    have hnl : n.isleaf = false := by
      unfold BNode.isleaf
      rw [hptrs]
      rcases cs with _ | ⟨c, rest⟩
      · exact absurd rfl hne
      · simp
    rw [hnl]
    simp only [Bool.false_eq_true, if_false]
    have htake : n.pointers.take (n.keys.length + 1) = n.pointers := by
      apply List.take_of_length_le
      rw [hptrs, List.length_map, hlen]
    rw [htake, hptrs, ← List.map_reverse, List.map_map]
    have hmapeq : (cs.reverse.map (backwardCollect store f ∘ STree.rootPtr))
        = cs.reverse.map (fun c => c.fringe.reverse) := by
      apply List.map_eq_map_iff.mpr
      intro c hc
      have hcmem : c ∈ cs := List.mem_reverse.mp hc
      have hdc : c.depth < f := by
        have := depth_child_lt p cs c hcmem
        omega
      exact ih c hcmem (hall c hcmem) f hdc
    rw [hmapeq, fringe_node, List.reverse_flatten, List.map_map, ← List.map_reverse]
    rfl

/-- C3.  B+tree scan order: under the sortedness and shape invariant,
`ScanAll` yields exactly the tree's fringe — whose keys are strictly
ascending — and `ScanAllReverse` yields exactly the reverse of that
sequence. -/
theorem btree_scan_order {K V P : Type} [LinearOrder K]
    (store : NodeStore K P V) (t : STree K V P)
    (hwf : t.wf store) (hch : chainedLeaves t.leaves none)
    (hsorted : (t.fringe.map Prod.fst).Pairwise (· < ·))
    (f1 f2 f3 : Nat) (hf3 : t.depth < f3) :
    scanAll store (f1 + t.ldepth + 1) (f2 + t.leaves.length) t.rootPtr
        = some t.fringe
      ∧ (t.fringe.map Prod.fst).Pairwise (· < ·)
      ∧ scanAllReverse store f3 t.rootPtr = t.fringe.reverse := by
  refine ⟨?_, hsorted, backwardCollect_eq store t hwf f3 hf3⟩
  unfold scanAll
  rw [leftmostLeaf_eq store t hwf f1]
  rcases hlv : t.leaves with _ | ⟨l, rest⟩
  · exact absurd hlv (leaves_ne_nil store t hwf)
  have hfacts : ∀ x ∈ t.leaves, store x.ptr = some ⟨x.keys, x.values, [], x.next⟩ :=
    fun x hx => (leaves_facts store t hwf x hx).1
  have hcoll := forwardCollect_chain store t.leaves none
    hfacts hch f2
  rw [hlv] at hcoll
  have hfp : t.firstLeafPtr = l.ptr := by
    unfold STree.firstLeafPtr
    rw [hlv]
  rw [hfp]
  rw [show chainHeadPtr (l :: rest) none = some l.ptr from rfl] at hcoll
  dsimp only
  rw [hcoll]
  rw [forwardCollect_none, List.append_nil]
  unfold STree.fringe
  rw [hlv]

theorem t0_wf : t0.wf store0 := by
  rw [t0, STree.wf_node_iff]
  refine ⟨?_, by simp, ?_⟩
  · rw [show store0 1 = some bnRoot from rfl]
    exact ⟨rfl, rfl⟩
  · intro c hc
    rcases List.mem_cons.mp hc with rfl | hc2
    · rw [STree.wf_leaf_iff]
      exact ⟨rfl, rfl, by simp⟩
    · rcases List.mem_singleton.mp hc2 with rfl
      rw [STree.wf_leaf_iff]
      exact ⟨rfl, rfl, by simp⟩

theorem t0_leaves : t0.leaves
    = [⟨2, [1, 5], [100, 105], some 3⟩, ⟨3, [10], [110], none⟩] := by
  rw [t0, STree.leaves_node]
  simp [STree.leaves_leaf]

/-- C3 witness: the scans evaluated on a two-leaf tree. -/
theorem btree_scan_order_witness :
    scanAll store0 (0 + t0.ldepth + 1) (0 + t0.leaves.length) t0.rootPtr
        = some t0.fringe
      ∧ (t0.fringe.map Prod.fst).Pairwise (· < ·)
      ∧ scanAllReverse store0 2 t0.rootPtr = t0.fringe.reverse :=
  btree_scan_order store0 t0 t0_wf
    (by rw [t0_leaves]; exact ⟨rfl, rfl⟩)
    (by unfold STree.fringe; rw [t0_leaves]; simp)
    0 0 2
    (by rw [t0, STree.depth, List.attach_map_val]; simp [STree.depth])

theorem dropWhile_all {α : Type} (p : α → Bool) (l : List α)
    (h : ∀ e ∈ l, p e = true) : l.dropWhile p = [] := by
  induction l with
  | nil => rfl
  | cons a t ih =>
    rw [List.dropWhile_cons, if_pos (h a (by simp))]
    exact ih (fun e he => h e (by simp [he]))

theorem zip_drop_findIdx {K V : Type} [LinearOrder K] (key : K) :
    ∀ (ks : List K) (vs : List V), ks.length = vs.length →
    (ks.zip vs).drop (ks.findIdx (fun k' => decide (key ≤ k')))
      = (ks.zip vs).dropWhile (fun e => decide (e.1 < key)) := by
  intro ks
  induction ks with
  | nil => intro vs _; simp
  | cons k kt ih =>
    intro vs hlen
    rcases vs with _ | ⟨v, vt⟩
    · simp at hlen
    rw [List.zip_cons_cons, List.findIdx_cons]
    by_cases hk : key ≤ k
    · rw [show (decide (key ≤ k)) = true by simpa using hk]
      rw [List.dropWhile_cons,
        if_neg (by simp only [decide_eq_true_eq]; exact fun hc => absurd hk (not_le.mpr hc))]
      rfl
    · rw [show (decide (key ≤ k)) = false by simpa using hk]
      rw [List.dropWhile_cons,
        if_pos (by simp only [decide_eq_true_eq]; exact lt_of_not_ge hk)]
      show (kt.zip vt).drop (kt.findIdx _) = _
      exact ih vt (by simpa using hlen)

theorem dropWhile_eq_filter_of_sorted {K V : Type} [LinearOrder K] (key : K) :
    ∀ l : List (K × V), (l.map Prod.fst).Pairwise (· < ·) →
    l.dropWhile (fun e => decide (e.1 < key)) = l.filter (fun e => decide (key ≤ e.1)) := by
  intro l
  induction l with
  | nil => intro _; rfl
  | cons a t ih =>
    intro hs
    rw [List.map_cons, List.pairwise_cons] at hs
    rw [List.dropWhile_cons, List.filter_cons]
    by_cases ha : a.1 < key
    · rw [if_pos (by simpa using ha),
        if_neg (by simpa using not_le.mpr ha)]
      exact ih hs.2
    · rw [if_neg (by simpa using ha),
        if_pos (by simpa using not_lt.mp ha)]
      congr 1
      symm
      apply List.filter_eq_self.mpr
      intro e he
      have hgt : a.1 < e.1 := hs.1 e.1 (List.mem_map_of_mem Prod.fst he)
      simpa using le_of_lt (lt_of_le_of_lt (not_lt.mp ha) hgt)

theorem walk_scanFrom {K V P : Type} [LinearOrder K] (store : NodeStore K P V)
    (key : K) :
    ∀ (L' : List (LeafRec K V P)) (l0 : LeafRec K V P),
    (∀ l ∈ l0 :: L', store l.ptr = some ⟨l.keys, l.values, [], l.next⟩
      ∧ l.keys.length = l.values.length) →
    chainedLeaves (l0 :: L') none →
    ∀ fuelW fuelC : Nat,
    ∃ p, walkToKey store key (fuelW + (l0 :: L').length) l0.ptr = some p
      ∧ scanFromLeaf store (fuelC + (l0 :: L').length) key p
        = some (((l0 :: L').flatMap (fun l => l.keys.zip l.values)).dropWhile
            (fun e => decide (e.1 < key))) := by
  intro L'
  induction L' with
  | nil =>
    intro l0 hfacts hch fuelW fuelC
    obtain ⟨hst, hlen⟩ := hfacts l0 (by simp)
    have hnext : l0.next = none := hch
    refine ⟨l0.ptr, ?_, ?_⟩
    · show walkToKey store key (fuelW + 1) l0.ptr = some l0.ptr
      rw [walkToKey, hst]
      dsimp only
      rw [hnext]
    · show scanFromLeaf store (fuelC + 1) key l0.ptr = _
      rw [scanFromLeaf, hst]
      dsimp only
      by_cases hidx : l0.keys.findIdx (fun k' => decide (key ≤ k')) < l0.keys.length
      · rw [if_pos hidx, hnext, forwardCollect_none, List.append_nil,
          zip_drop_findIdx key l0.keys l0.values hlen]
        simp
      · rw [if_neg hidx, hnext]
        have hall : ∀ e ∈ l0.keys.zip l0.values, decide (e.1 < key) = true := by
          rintro ⟨a, b⟩ he
          have hek : a ∈ l0.keys := (List.of_mem_zip he).1
          have hnex : ¬ ∃ x ∈ l0.keys, decide (key ≤ x) = true := by
            intro hex
            exact hidx (List.findIdx_lt_length.mpr hex)
          push_neg at hnex
          have := hnex a hek
          simpa using lt_of_not_ge (by simpa using this)
        rw [show ([l0].flatMap (fun l => l.keys.zip l.values))
            = l0.keys.zip l0.values by simp]
        rw [dropWhile_all _ _ hall]
  | cons l1 L'' ih =>
    intro l0 hfacts hch fuelW fuelC
    obtain ⟨hst, hlen⟩ := hfacts l0 (by simp)
    have hnext : l0.next = some l1.ptr := hch.1
    have hch' : chainedLeaves (l1 :: L'') none := hch.2
    have hfacts' : ∀ l ∈ l1 :: L'', store l.ptr = some ⟨l.keys, l.values, [], l.next⟩
        ∧ l.keys.length = l.values.length :=
      fun l hl => hfacts l (by simp [hl])
    by_cases hany : l0.keys.any (fun k' => decide (key ≤ k')) = true
    · refine ⟨l0.ptr, ?_, ?_⟩
      · show walkToKey store key (fuelW + (L''.length + 1 + 1)) l0.ptr = some l0.ptr
        have harith : fuelW + (L''.length + 1 + 1) = (fuelW + (L''.length + 1)) + 1 := by
          omega
        rw [harith, walkToKey, hst]
        dsimp only
        rw [hnext]
        dsimp only
        rw [if_pos hany]
      · show scanFromLeaf store (fuelC + (L''.length + 1 + 1)) key l0.ptr = _
        rw [scanFromLeaf, hst]
        dsimp only
        have hidx : l0.keys.findIdx (fun k' => decide (key ≤ k')) < l0.keys.length :=
          List.findIdx_lt_length.mpr (by simpa using List.any_eq_true.mp hany)
        rw [if_pos hidx, hnext]
        have hcoll := forwardCollect_chain store (l1 :: L'') none
          (fun l hl => (hfacts' l hl).1) hch' (fuelC + 1)
        rw [show chainHeadPtr (l1 :: L'') none = some l1.ptr from rfl] at hcoll
        rw [forwardCollect_none, List.append_nil] at hcoll
        have harith : fuelC + (L''.length + 1 + 1) = (fuelC + 1) + (l1 :: L'').length := by
          simp
          omega
        rw [harith, hcoll]
        conv_rhs => rw [List.flatMap_cons]
        rw [List.dropWhile_append]
        have hdw : (l0.keys.zip l0.values).dropWhile (fun e => decide (e.1 < key))
            = (l0.keys.zip l0.values).drop
                (l0.keys.findIdx (fun k' => decide (key ≤ k'))) :=
          (zip_drop_findIdx key l0.keys l0.values hlen).symm
        have hnnil : (l0.keys.zip l0.values).drop
            (l0.keys.findIdx (fun k' => decide (key ≤ k'))) ≠ [] := by
          intro hcon
          rw [List.drop_eq_nil_iff] at hcon
          rw [List.length_zip, ← hlen, Nat.min_self] at hcon
          omega
        have hne : ((l0.keys.zip l0.values).dropWhile
            (fun e => decide (e.1 < key))).isEmpty = false := by
          rw [hdw, ← Bool.not_eq_true, List.isEmpty_iff]
          exact hnnil
        rw [if_neg (by simp [hne]), hdw]
    · have hstep := ih l1 hfacts' hch' fuelW (fuelC + 1)
      obtain ⟨p, hw, hs⟩ := hstep
      refine ⟨p, ?_, ?_⟩
      · show walkToKey store key (fuelW + (L''.length + 1 + 1)) l0.ptr = some p
        have harith : fuelW + (L''.length + 1 + 1) = (fuelW + (L''.length + 1)) + 1 := by
          omega
        rw [harith, walkToKey, hst]
        dsimp only
        rw [hnext]
        dsimp only
        rw [if_neg hany]
        exact hw
      · have harith : fuelC + (L''.length + 1 + 1) = (fuelC + 1) + (l1 :: L'').length := by
          simp
          omega
        rw [show (l0 :: l1 :: L'').length = L''.length + 1 + 1 from rfl, harith, hs]
        congr 1
        conv_rhs => rw [List.flatMap_cons]
        rw [List.dropWhile_append]
        have hall : ∀ e ∈ l0.keys.zip l0.values, (fun e => decide (e.1 < key)) e = true := by
          intro e he
          rcases e with ⟨a, b⟩
          have hek : a ∈ l0.keys := (List.of_mem_zip he).1
          have hnot := List.any_eq_false.mp (Bool.of_not_eq_true hany) a hek
          simpa using lt_of_not_ge (by simpa using hnot)
        rw [dropWhile_all _ _ hall]
        simp

/-- C4.  `ScanFrom(k)` yields exactly the suffix of `ScanAll`
consisting of the entries with key `≥ k`, in ascending order: under the
invariant it returns the fringe with the strict prefix of smaller keys
dropped, which (by sortedness) is exactly the filter to keys `≥ k`; in
particular it is empty when every key is smaller than `k`. -/
theorem btree_scanFrom_suffix {K V P : Type} [LinearOrder K]
    (store : NodeStore K P V) (t : STree K V P) (key : K)
    (hwf : t.wf store) (hch : chainedLeaves t.leaves none)
    (hsorted : (t.fringe.map Prod.fst).Pairwise (· < ·))
    (f1 f2 f3 : Nat) :
    scanFrom store (f1 + t.ldepth + 1) (f2 + t.leaves.length) (f3 + t.leaves.length)
        key t.rootPtr
      = some (t.fringe.dropWhile (fun e => decide (e.1 < key)))
    ∧ t.fringe.dropWhile (fun e => decide (e.1 < key))
      = t.fringe.filter (fun e => decide (key ≤ e.1))
    ∧ ((∀ e ∈ t.fringe, e.1 < key) →
        t.fringe.filter (fun e => decide (key ≤ e.1)) = []) := by
  refine ⟨?_, dropWhile_eq_filter_of_sorted key t.fringe hsorted, ?_⟩
  · unfold scanFrom
    rw [leftmostLeaf_eq store t hwf f1]
    dsimp only
    rcases hlv : t.leaves with _ | ⟨l0, L'⟩
    · exact absurd hlv (leaves_ne_nil store t hwf)
    have hfacts : ∀ l ∈ l0 :: L',
        store l.ptr = some ⟨l.keys, l.values, [], l.next⟩
          ∧ l.keys.length = l.values.length := by
      intro l hl
      have := leaves_facts store t hwf l (hlv ▸ hl)
      exact ⟨this.1, this.2.1⟩
    have hch2 : chainedLeaves (l0 :: L') none := hlv ▸ hch
    obtain ⟨p, hw, hs⟩ := walk_scanFrom store key L' l0 hfacts hch2 f2 f3
    have hfp : t.firstLeafPtr = l0.ptr := by
      unfold STree.firstLeafPtr
      rw [hlv]
    rw [hfp, hw]
    dsimp only
    rw [hs]
    unfold STree.fringe
    rw [hlv]
  · intro h
    apply List.filter_eq_nil_iff.mpr
    intro a ha
    simpa using not_le.mpr (h a ha)

/-- C4 witness: `ScanFrom 3` on the two-leaf sample tree yields the
entries with keys `5` and `10`. -/
theorem btree_scanFrom_suffix_witness :
    scanFrom store0 (0 + t0.ldepth + 1) (0 + t0.leaves.length) (0 + t0.leaves.length)
        3 t0.rootPtr
      = some (t0.fringe.dropWhile (fun e => decide (e.1 < 3)))
    ∧ t0.fringe.dropWhile (fun e => decide (e.1 < 3))
      = t0.fringe.filter (fun e => decide (3 ≤ e.1))
    ∧ ((∀ e ∈ t0.fringe, e.1 < 3) →
        t0.fringe.filter (fun e => decide (3 ≤ e.1)) = []) :=
  btree_scanFrom_suffix store0 t0 3 t0_wf
    (by rw [t0_leaves]; exact ⟨rfl, rfl⟩)
    (by unfold STree.fringe; rw [t0_leaves]; simp)
    0 0 0

end Plakar
